/-
  Verification of the tessera facility-coverage geometry engine.

  Shallow embedding of the backend services:
    * `PopulationModel`  — `population_calc.py` (`calculate_weighted_population`)
    * `WeightedModel`    — `weighted_voronoi.py` (`_compute_weighted_voronoi`)
    * `AnalyticsModel`   — `analytics_service.py` (`find_largest_empty_circle`)
    * `DCELModel`        — `dcel.py` (queries over the face list)
    * `EngineModel`      — `voronoi_engine.py` (`compute_voronoi`, `_clip_polygon`)

  Planar geometry is embedded over ℚ.  Square roots are avoided by carrying
  squared distances wherever the source only uses distances through
  order-comparisons (x ↦ √x is strictly monotone on [0,∞)); where an actual
  distance value matters the bridge to `Real.sqrt` is proved explicitly.
-/
import Mathlib

namespace PopulationModel

/-- A population-bearing district, as loaded by `PopulationService._load_data`:
a polygonal region together with a non-negative population count.  Regions are
embedded as finite sets of atoms; `area` is atom count and intersection is set
intersection, which gives the finitely-additive behaviour the source relies on
(`shapely` areas of intersections of interior-disjoint cells). -/
structure District where
  population : ℕ
  region : Finset ℕ

/-- Population attributed to one Voronoi cell, mirroring the inner loop of
`PopulationService.calculate_weighted_population` (population_calc.py,
lines 89–110): every district whose region meets the cell (the spatial-index
`intersects` candidate query followed by the `intersection.is_empty` check) and
whose own area is positive contributes
`population(d) * area(cell ∩ d) / area(d)`.  This is the exact rational
accumulation of the source's `total_weighted_pop` (the source finally truncates
it with `int(...)`, which only lowers each value). -/
def cellPopulation (districts : List District) (cell : Finset ℕ) : ℚ :=
  (districts.map (fun d =>
    if (cell ∩ d.region).Nonempty ∧ 0 < d.region.card then
      (d.population : ℚ) * ((cell ∩ d.region).card : ℚ) / (d.region.card : ℚ)
    else 0)).sum

/-- `calculate_weighted_population` over a feature collection: one attributed
population per Voronoi cell, in input order. -/
def calculateWeightedPopulation (districts : List District)
    (cells : List (Finset ℕ)) : List ℚ :=
  cells.map (cellPopulation districts)

/-- The union of all cells (the region jointly covered by the diagram). -/
def cellsUnion (cells : List (Finset ℕ)) : Finset ℕ :=
  cells.foldr (· ∪ ·) ∅

lemma mem_cellsUnion {cells : List (Finset ℕ)} {x : ℕ} :
    x ∈ cellsUnion cells ↔ ∃ c ∈ cells, x ∈ c := by
  induction cells with
  | nil => simp [cellsUnion]
  | cons c cs ih =>
    simp only [cellsUnion, List.foldr_cons, Finset.mem_union] at *
    constructor
    · rintro (h | h)
      · exact ⟨c, by simp, h⟩
      · obtain ⟨c2, hc2, hx⟩ := ih.mp h
        exact ⟨c2, by simp [hc2], hx⟩
    · rintro ⟨c2, hc2, hx⟩
      rcases List.mem_cons.mp hc2 with rfl | hc2
      · exact Or.inl hx
      · exact Or.inr (ih.mpr ⟨c2, hc2, hx⟩)

/-- When the cells are pairwise disjoint, the parts of a fixed district `d`
carved out by the cells cannot exceed `d` itself; and when they exactly exhaust
`d`, the cells cover `d`. -/
lemma sum_inter_card_le :
    ∀ (cells : List (Finset ℕ)), cells.Pairwise Disjoint → ∀ d : Finset ℕ,
      (cells.map (fun c => (c ∩ d).card)).sum ≤ d.card ∧
      ((cells.map (fun c => (c ∩ d).card)).sum = d.card →
        d ⊆ cellsUnion cells) := by
  intro cells
  induction cells with
  | nil =>
    intro _ d
    refine ⟨by simp, fun h => ?_⟩
    simp only [List.map_nil, List.sum_nil] at h
    intro x hx
    exact absurd (Finset.card_pos.mpr ⟨x, hx⟩) (by omega)
  | cons c cs ih =>
    intro hdisj d
    have hhead : ∀ c2 ∈ cs, Disjoint c c2 := (List.pairwise_cons.mp hdisj).1
    have htail : cs.Pairwise Disjoint := (List.pairwise_cons.mp hdisj).2
    -- a cell disjoint from `c` meets `d` only inside `d \ c`
    have hsame : ∀ c2 ∈ cs, c2 ∩ d = c2 ∩ (d \ c) := by
      intro c2 hc2
      ext x
      simp only [Finset.mem_inter, Finset.mem_sdiff]
      constructor
      · rintro ⟨hx2, hxd⟩
        exact ⟨hx2, hxd, fun hxc => (Finset.disjoint_left.mp (hhead c2 hc2)) hxc hx2⟩
      · rintro ⟨hx2, hxd, _⟩
        exact ⟨hx2, hxd⟩
    have hmapeq : cs.map (fun c2 => (c2 ∩ d).card)
        = cs.map (fun c2 => (c2 ∩ (d \ c)).card) := by
      apply List.map_congr_left
      intro c2 hc2
      rw [hsame c2 hc2]
    have hcard : (c ∩ d).card + (d \ c).card = d.card := by
      rw [Finset.inter_comm]
      exact Finset.card_inter_add_card_sdiff d c
    obtain ⟨ihle, ihcov⟩ := ih htail (d \ c)
    constructor
    · simp only [List.map_cons, List.sum_cons, hmapeq]
      omega
    · intro hsum
      simp only [List.map_cons, List.sum_cons, hmapeq] at hsum
      -- the head takes at most its share, so the tail exhausts `d \ c`
      have hle2 : (c ∩ d).card ≤ d.card := Finset.card_le_card Finset.inter_subset_right
      have hex : (cs.map (fun c2 => (c2 ∩ (d \ c)).card)).sum = (d \ c).card := by
        omega
      have hcov := ihcov hex
      intro x hx
      rw [mem_cellsUnion]
      by_cases hxc : x ∈ c
      · exact ⟨c, by simp, hxc⟩
      · obtain ⟨c2, hc2, hx2⟩ := mem_cellsUnion.mp
          (hcov (Finset.mem_sdiff.mpr ⟨hx, hxc⟩))
        exact ⟨c2, by simp [hc2], hx2⟩

lemma list_sum_map_add {α : Type} (l : List α) (f g : α → ℚ) :
    (l.map (fun a => f a + g a)).sum = (l.map f).sum + (l.map g).sum := by
  induction l with
  | nil => simp
  | cons a as ih => simp [ih]; ring

/-- Exchanging the two summations of `calculate_weighted_population`
(cells outside, districts inside). -/
lemma list_sum_swap {α β : Type} (f : α → β → ℚ) (l1 : List α) (l2 : List β) :
    (l1.map (fun a => (l2.map (f a)).sum)).sum
      = (l2.map (fun b => (l1.map (fun a => f a b)).sum)).sum := by
  induction l1 with
  | nil => simp [List.map_const]
  | cons a as ih =>
    simp only [List.map_cons, List.sum_cons, ih]
    rw [← list_sum_map_add]

lemma list_sum_le_sum {α : Type} {l : List α} {f g : α → ℚ}
    (h : ∀ a ∈ l, f a ≤ g a) : (l.map f).sum ≤ (l.map g).sum := by
  induction l with
  | nil => simp
  | cons a as ih =>
    simp only [List.map_cons, List.sum_cons]
    have := h a (by simp)
    have := ih (fun x hx => h x (by simp [hx]))
    linarith

lemma list_sum_eq_force {α : Type} {l : List α} {f g : α → ℚ}
    (h : ∀ a ∈ l, f a ≤ g a)
    (heq : (l.map f).sum = (l.map g).sum) : ∀ a ∈ l, f a = g a := by
  induction l with
  | nil => simp
  | cons a as ih =>
    simp only [List.map_cons, List.sum_cons] at heq
    have h1 := h a (by simp)
    have h2 : (as.map f).sum ≤ (as.map g).sum :=
      list_sum_le_sum (fun x hx => h x (by simp [hx]))
    have ha : f a = g a := by linarith
    have hs : (as.map f).sum = (as.map g).sum := by linarith
    intro x hx
    rcases List.mem_cons.mp hx with rfl | hx
    · exact ha
    · exact ih (fun y hy => h y (by simp [hy])) hs x hx

/-- What a single district `d` contributes in total, over all cells. -/
def districtContribution (cells : List (Finset ℕ)) (d : District) : ℚ :=
  (cells.map (fun c =>
    if (c ∩ d.region).Nonempty ∧ 0 < d.region.card then
      (d.population : ℚ) * ((c ∩ d.region).card : ℚ) / (d.region.card : ℚ)
    else 0)).sum

lemma total_eq_sum_contribution (districts : List District)
    (cells : List (Finset ℕ)) :
    (calculateWeightedPopulation districts cells).sum
      = (districts.map (districtContribution cells)).sum := by
  unfold calculateWeightedPopulation cellPopulation districtContribution
  exact list_sum_swap _ cells districts

lemma cast_sum_inter (cells : List (Finset ℕ)) (r : Finset ℕ) :
    ((cells.map (fun c => ((c ∩ r).card : ℚ))).sum)
      = (((cells.map (fun c => (c ∩ r).card)).sum : ℕ) : ℚ) := by
  induction cells with
  | nil => simp
  | cons c cs ih => simp [ih]

lemma districtContribution_eq (cells : List (Finset ℕ)) (d : District)
    (hd : 0 < d.region.card) :
    districtContribution cells d
      = (d.population : ℚ) / (d.region.card : ℚ)
        * (((cells.map (fun c => (c ∩ d.region).card)).sum : ℕ) : ℚ) := by
  unfold districtContribution
  rw [← cast_sum_inter]
  induction cells with
  | nil => simp
  | cons c cs ih =>
    simp only [List.map_cons, List.sum_cons, ih]
    by_cases hne : (c ∩ d.region).Nonempty
    · rw [if_pos ⟨hne, hd⟩]; ring
    · rw [if_neg (by tauto)]
      rw [Finset.not_nonempty_iff_eq_empty] at hne
      simp [hne]

lemma districtContribution_zero (cells : List (Finset ℕ)) (d : District)
    (hd : d.region.card = 0) : districtContribution cells d = 0 := by
  unfold districtContribution
  have : ∀ c ∈ cells,
      (if (c ∩ d.region).Nonempty ∧ 0 < d.region.card then
        (d.population : ℚ) * ((c ∩ d.region).card : ℚ) / (d.region.card : ℚ)
      else 0) = 0 := by
    intro c _
    rw [if_neg]
    omega
  rw [List.map_congr_left this]
  simp [List.map_const]

lemma districtContribution_le (cells : List (Finset ℕ)) (d : District)
    (hdisj : cells.Pairwise Disjoint) :
    districtContribution cells d ≤ (d.population : ℚ) := by
  by_cases hd : 0 < d.region.card
  · rw [districtContribution_eq cells d hd]
    have hle := (sum_inter_card_le cells hdisj d.region).1
    have hcast : (((cells.map (fun c => (c ∩ d.region).card)).sum : ℕ) : ℚ)
        ≤ (d.region.card : ℚ) := by exact_mod_cast hle
    have hpos : (0 : ℚ) < (d.region.card : ℚ) := by exact_mod_cast hd
    calc (d.population : ℚ) / (d.region.card : ℚ)
          * (((cells.map (fun c => (c ∩ d.region).card)).sum : ℕ) : ℚ)
        ≤ (d.population : ℚ) / (d.region.card : ℚ) * (d.region.card : ℚ) := by
          apply mul_le_mul_of_nonneg_left hcast
          positivity
      _ = (d.population : ℚ) := by field_simp
  · rw [districtContribution_zero cells d (by omega)]
    positivity

/-- C1 (amended): for pairwise-disjoint Voronoi cells, the total population
attributed by `calculate_weighted_population` is at most the sum of the
district populations (each cell's population being the sum over intersecting
districts of `population(d) * area(cell ∩ d) / area(d)`), and equality forces
the cells to cover every district of positive population.  The original
"equality only when the cells cover every district" fails for districts of
population 0, see the counterexample. -/
theorem calculateWeightedPopulation_conservation
    (districts : List District) (cells : List (Finset ℕ))
    (hdisj : cells.Pairwise Disjoint) :
    (calculateWeightedPopulation districts cells).sum
      ≤ (districts.map (fun d => (d.population : ℚ))).sum ∧
    ((calculateWeightedPopulation districts cells).sum
        = (districts.map (fun d => (d.population : ℚ))).sum →
      ∀ d ∈ districts, 0 < d.population → d.region ⊆ cellsUnion cells) := by
  rw [total_eq_sum_contribution]
  have hle : ∀ d ∈ districts, districtContribution cells d ≤ (d.population : ℚ) :=
    fun d _ => districtContribution_le cells d hdisj
  refine ⟨list_sum_le_sum hle, ?_⟩
  intro heq d hd hpop
  have hforce := list_sum_eq_force hle heq d hd
  have hpopQ : (0 : ℚ) < (d.population : ℚ) := by exact_mod_cast hpop
  by_cases hcard : 0 < d.region.card
  · rw [districtContribution_eq cells d hcard] at hforce
    have hpos : (0 : ℚ) < (d.region.card : ℚ) := by exact_mod_cast hcard
    have hsum : (cells.map (fun c => (c ∩ d.region).card)).sum = d.region.card := by
      field_simp at hforce
      rcases hforce with h | h
      · have hq : ((cells.map (fun c => ((c ∩ d.region).card : ℚ))).sum)
            = (d.region.card : ℚ) := by
          simpa [Function.comp] using h
        rw [cast_sum_inter] at hq
        exact_mod_cast hq
      · exact absurd h (by omega)
    exact (sum_inter_card_le cells hdisj d.region).2 hsum
  · rw [districtContribution_zero cells d (by omega)] at hforce
    exact absurd hforce.symm (ne_of_gt hpopQ)

/-- Witness for C1 at a concrete input: one district of population 5 split
between two disjoint cells. -/
theorem calculateWeightedPopulation_conservation_witness :
    (calculateWeightedPopulation [⟨5, ({0, 1} : Finset ℕ)⟩]
        [({0} : Finset ℕ), ({1} : Finset ℕ)]).sum
      ≤ ([(⟨5, ({0, 1} : Finset ℕ)⟩ : District)].map
          (fun d => (d.population : ℚ))).sum ∧
    ((calculateWeightedPopulation [⟨5, ({0, 1} : Finset ℕ)⟩]
        [({0} : Finset ℕ), ({1} : Finset ℕ)]).sum
        = ([(⟨5, ({0, 1} : Finset ℕ)⟩ : District)].map
            (fun d => (d.population : ℚ))).sum →
      ∀ d ∈ [(⟨5, ({0, 1} : Finset ℕ)⟩ : District)], 0 < d.population →
        d.region ⊆ cellsUnion [({0} : Finset ℕ), ({1} : Finset ℕ)]) :=
  calculateWeightedPopulation_conservation _ _ (by decide)

/-- Counterexample to C1 as stated: a district with population 0 that no cell
covers still yields equality of the two sums, so equality does not imply that
the cells cover every district. -/
theorem calculateWeightedPopulation_equality_without_coverage :
    [({1} : Finset ℕ)].Pairwise Disjoint ∧
    (calculateWeightedPopulation [⟨0, ({0} : Finset ℕ)⟩] [({1} : Finset ℕ)]).sum
      = ([(⟨0, ({0} : Finset ℕ)⟩ : District)].map
          (fun d => (d.population : ℚ))).sum ∧
    ¬ (∀ d ∈ [(⟨0, ({0} : Finset ℕ)⟩ : District)],
        d.region ⊆ cellsUnion [({1} : Finset ℕ)]) := by
  refine ⟨by simp, by simp [calculateWeightedPopulation, cellPopulation],
    fun h => ?_⟩
  have := h ⟨0, ({0} : Finset ℕ)⟩ (by simp)
  revert this
  decide

end PopulationModel

namespace DCELModel

/-- A face of the DCEL as built by `DCEL.build_from_voronoi` (dcel.py): the
facility identity and the cached cell polygon (exterior-ring vertex list;
`none` when the feature carried no usable geometry). -/
structure Face where
  facilityId : String
  polygon : Option (List (ℚ × ℚ))
deriving DecidableEq

/-- Shoelace cross term of one polygon edge. -/
def cross (p q : ℚ × ℚ) : ℚ := p.1 * q.2 - q.1 * p.2

/-- Consecutive vertex pairs of a ring, wrapping around to the start. -/
def cyclicPairs : List (ℚ × ℚ) → List ((ℚ × ℚ) × (ℚ × ℚ))
  | [] => []
  | x :: xs => (x :: xs).zip (xs ++ [x])

/-- Twice the signed area of a ring (shoelace formula). -/
def signedArea2 (ring : List (ℚ × ℚ)) : ℚ :=
  ((cyclicPairs ring).map (fun pq => cross pq.1 pq.2)).sum

/-- The centroid of a simple polygon ring, as `shapely` computes it for
`face.polygon.centroid`.  Zero-area rings get the dummy value `(0, 0)`;
no theorem below depends on that value. -/
def centroid (ring : List (ℚ × ℚ)) : ℚ × ℚ :=
  let a2 := signedArea2 ring
  if a2 = 0 then (0, 0)
  else
    (((cyclicPairs ring).map
        (fun pq => (pq.1.1 + pq.2.1) * cross pq.1 pq.2)).sum / (3 * a2),
     ((cyclicPairs ring).map
        (fun pq => (pq.1.2 + pq.2.2) * cross pq.1 pq.2)).sum / (3 * a2))

/-- The (distance, face) pair list built by the loops of
`k_nearest_neighbors` and `adaptive_k` (dcel.py lines 207–213 and 241–247):
faces without a polygon are skipped, input order is kept.  The planar distance
`query_point.distance(centroid)` is irrational in general, so the model takes
the distance function `qdist` as a parameter; the theorems below hold for
every `qdist`, and concrete instantiations agree with the Euclidean distance
at every point where they are evaluated. -/
def centroidDistances (qdist : ℚ × ℚ → ℚ × ℚ → ℚ) (q : ℚ × ℚ)
    (faces : List Face) : List (ℚ × Face) :=
  faces.filterMap (fun f => f.polygon.map (fun ring => (qdist q (centroid ring), f)))

/-- Insertion into a sorted list, placing the new element before the first
strictly-larger key.  Together with `sortByDist` this models Python's stable
`list.sort(key=lambda x: x[0])` exactly: equal keys keep their original
relative order. -/
def insertByDist (x : ℚ × Face) : List (ℚ × Face) → List (ℚ × Face)
  | [] => [x]
  | y :: ys => if x.1 ≤ y.1 then x :: y :: ys else y :: insertByDist x ys

/-- Stable sort by the distance key (`distances.sort(key=lambda x: x[0])`). -/
def sortByDist (l : List (ℚ × Face)) : List (ℚ × Face) :=
  l.foldr insertByDist []

lemma insertByDist_perm (x : ℚ × Face) (l : List (ℚ × Face)) :
    (insertByDist x l).Perm (x :: l) := by
  induction l with
  | nil => simp [insertByDist]
  | cons y ys ih =>
    unfold insertByDist
    split
    · exact List.Perm.refl _
    · exact (ih.cons y).trans (List.Perm.swap x y ys)

lemma sortByDist_perm (l : List (ℚ × Face)) : (sortByDist l).Perm l := by
  induction l with
  | nil => simp [sortByDist]
  | cons x xs ih =>
    exact (insertByDist_perm x (sortByDist xs)).trans (ih.cons x)

lemma insertByDist_sorted (x : ℚ × Face) (l : List (ℚ × Face))
    (h : l.Pairwise (fun a b => a.1 ≤ b.1)) :
    (insertByDist x l).Pairwise (fun a b => a.1 ≤ b.1) := by
  induction l with
  | nil => simp [insertByDist]
  | cons y ys ih =>
    rw [List.pairwise_cons] at h
    unfold insertByDist
    split
    · rename_i hxy
      rw [List.pairwise_cons]
      refine ⟨?_, List.pairwise_cons.mpr h⟩
      intro z hz
      rcases List.mem_cons.mp hz with rfl | hz
      · exact hxy
      · exact le_trans hxy (h.1 z hz)
    · rename_i hxy
      push_neg at hxy
      rw [List.pairwise_cons]
      refine ⟨?_, ih h.2⟩
      intro z hz
      rcases List.mem_cons.mp ((insertByDist_perm x ys).mem_iff.mp hz) with rfl | hz
      · exact le_of_lt hxy
      · exact h.1 z hz

lemma sortByDist_sorted (l : List (ℚ × Face)) :
    (sortByDist l).Pairwise (fun a b => a.1 ≤ b.1) := by
  induction l with
  | nil => simp [sortByDist]
  | cons x xs ih => exact insertByDist_sorted x (sortByDist xs) ih

lemma insertByDist_filter (x : ℚ × Face) (l : List (ℚ × Face)) (v : ℚ) :
    (insertByDist x l).filter (fun p => p.1 = v)
      = if x.1 = v then x :: l.filter (fun p => p.1 = v)
        else l.filter (fun p => p.1 = v) := by
  induction l with
  | nil => simp [insertByDist, List.filter_cons]
  | cons y ys ih =>
    unfold insertByDist
    split
    · simp [List.filter_cons]
    · rename_i hxy
      push_neg at hxy
      rw [List.filter_cons, List.filter_cons, ih]
      by_cases hx : x.1 = v
      · by_cases hy : y.1 = v
        · exact absurd (hy.trans hx.symm) (ne_of_lt hxy)
        · simp [hx, hy]
      · simp [hx]

/-- Stability of the sort: among pairs with the same distance, the sorted list
keeps the original (face-insertion) order. -/
lemma sortByDist_stable (l : List (ℚ × Face)) (v : ℚ) :
    (sortByDist l).filter (fun p => p.1 = v) = l.filter (fun p => p.1 = v) := by
  induction l with
  | nil => simp [sortByDist]
  | cons x xs ih =>
    show (insertByDist x (sortByDist xs)).filter _ = _
    rw [insertByDist_filter, List.filter_cons]
    by_cases hx : x.1 = v
    · simp [hx, ih]
    · simp [hx, ih]

/-- `DCEL.k_nearest_neighbors` (dcel.py lines 188–217): pair each face that
has a polygon with the distance from the query point to its centroid, stable
sort by distance, return the first `k` faces. -/
def kNearestNeighbors (qdist : ℚ × ℚ → ℚ × ℚ → ℚ) (q : ℚ × ℚ) (k : ℕ)
    (faces : List Face) : List Face :=
  ((sortByDist (centroidDistances qdist q faces)).take k).map (fun p => p.2)

/-- Placeholder pair for `headD`/`getD`; only reached where the source would
raise an `IndexError` (`distances[0]` with `base_k = 0` on an empty distance
list), which the theorems rule out by assuming `1 ≤ base_k`, as every caller
in the repository satisfies. -/
def dfltPair : ℚ × Face := (0, ⟨"", none⟩)

/-- `DCEL.adaptive_k` (dcel.py lines 219–264). -/
def adaptiveK (qdist : ℚ × ℚ → ℚ × ℚ → ℚ) (q : ℚ × ℚ) (baseK : ℕ) (τ : ℚ)
    (faces : List Face) : ℕ × List Face :=
  if faces.isEmpty then (baseK, [])
  else
    let distances := sortByDist (centroidDistances qdist q faces)
    if distances.length < baseK then
      (distances.length, distances.map (fun p => p.2))
    else
      let firstDist := (distances.headD dfltPair).1
      let kthDist := (distances.getD (baseK - 1) dfltPair).1
      if 0 < firstDist ∧ kthDist / firstDist > τ then
        let expandedK := min (baseK * 2) distances.length
        (expandedK, (distances.take expandedK).map (fun p => p.2))
      else
        (baseK, (distances.take baseK).map (fun p => p.2))

/-- C6 (amended): `k_nearest_neighbors` returns the first `k` entries (so `k`
capped at the number of faces carrying polygons) of a stable sort by centroid
distance of the face list: the sorted list is a permutation of the
(distance, face) pairs, ordered by distance ascending, and entries with equal
distance keep their original insertion order — Python's `sort` is stable — not
facility-id order (see the counterexample). -/
theorem kNearestNeighbors_ordered (qdist : ℚ × ℚ → ℚ × ℚ → ℚ) (q : ℚ × ℚ)
    (k : ℕ) (faces : List Face) :
    (kNearestNeighbors qdist q k faces).length
        = min k (centroidDistances qdist q faces).length ∧
    (sortByDist (centroidDistances qdist q faces)).Perm
        (centroidDistances qdist q faces) ∧
    (sortByDist (centroidDistances qdist q faces)).Pairwise
        (fun a b => a.1 ≤ b.1) ∧
    (∀ v : ℚ, (sortByDist (centroidDistances qdist q faces)).filter
          (fun p => p.1 = v)
        = (centroidDistances qdist q faces).filter (fun p => p.1 = v)) ∧
    kNearestNeighbors qdist q k faces
        = ((sortByDist (centroidDistances qdist q faces)).take k).map
            (fun p => p.2) := by
  refine ⟨?_, sortByDist_perm _, sortByDist_sorted _, sortByDist_stable _, rfl⟩
  rw [kNearestNeighbors, List.length_map, List.length_take,
    (sortByDist_perm _).length_eq]

/-- A distance function that coincides with the planar Euclidean distance
whenever the two points share a coordinate (all concrete evaluations below
compare points on the x-axis, where the Euclidean distance is `|Δx|`). -/
def axDist (p q : ℚ × ℚ) : ℚ := |q.1 - p.1| + |q.2 - p.2|

/-- Axis-aligned unit square centered at `(cx, cy)` (counter-clockwise). -/
def sqRing (cx cy : ℚ) : List (ℚ × ℚ) :=
  [(cx - 1/2, cy - 1/2), (cx + 1/2, cy - 1/2),
   (cx + 1/2, cy + 1/2), (cx - 1/2, cy + 1/2)]

/-- Squared Euclidean distance, used to certify that `axDist` agrees with the
true planar Euclidean distance at every point where a counterexample evaluates
it (both are non-negative, so equal squares mean equal distances). -/
def sqEuclid (p q : ℚ × ℚ) : ℚ := (p.1 - q.1) ^ 2 + (p.2 - q.2) ^ 2

/-- Counterexample to C6 as stated: two faces whose centroids are equidistant
from the query point; the face inserted first (`"b"`) is returned before the
face with the smaller facility id (`"a"`), so ties are broken by insertion
order, not by facility id ascending.  The last two conjuncts certify that
`axDist` takes the true (non-negative) Euclidean values at the two evaluated
centroid distances. -/
theorem kNearestNeighbors_tie_not_id_order :
    (kNearestNeighbors axDist (0, 0) 2
        [⟨"b", some (sqRing 1 0)⟩, ⟨"a", some (sqRing (-1) 0)⟩]).map
        Face.facilityId = ["b", "a"] ∧
    axDist (0, 0) (centroid (sqRing 1 0))
      = axDist (0, 0) (centroid (sqRing (-1) 0)) ∧
    ("a" : String) < "b" ∧
    (axDist (0, 0) (centroid (sqRing 1 0))) ^ 2
      = sqEuclid (0, 0) (centroid (sqRing 1 0)) ∧
    (axDist (0, 0) (centroid (sqRing (-1) 0))) ^ 2
      = sqEuclid (0, 0) (centroid (sqRing (-1) 0)) ∧
    0 ≤ axDist (0, 0) (centroid (sqRing 1 0)) ∧
    0 ≤ axDist (0, 0) (centroid (sqRing (-1) 0)) := by
  refine ⟨?_, ?_, by rw [String.lt_iff_toList_lt]; decide, ?_, ?_, ?_, ?_⟩
  · norm_num [kNearestNeighbors, centroidDistances, sortByDist, insertByDist,
      centroid, signedArea2, cyclicPairs, cross, axDist, sqRing, List.filterMap]
  all_goals
    norm_num [centroid, signedArea2, cyclicPairs, cross, axDist, sqRing, sqEuclid]

/-- C5 (amended): for a non-empty face list and `base_k ≥ 1`, `adaptive_k`
returns the `k'` nearest faces where
 * `k' = min(2·base_k, F)` when `d₁ > 0` and `d_k/d₁ > τ` (`F` the number of
   faces carrying polygons) — the doubling is capped at the face count, and no
   expansion happens when `d₁ = 0`;
 * `k' = base_k` otherwise (provided `F ≥ base_k`);
 * `k' = F` when `F < base_k`;
and in every case the returned list is `k_nearest_neighbors` at `k'`. -/
theorem adaptiveK_spec (qdist : ℚ × ℚ → ℚ × ℚ → ℚ) (q : ℚ × ℚ) (baseK : ℕ)
    (τ : ℚ) (faces : List Face) (hne : faces ≠ []) (hk : 1 ≤ baseK)
    (ds : List (ℚ × Face))
    (hds : ds = sortByDist (centroidDistances qdist q faces)) :
    (adaptiveK qdist q baseK τ faces).2
        = kNearestNeighbors qdist q (adaptiveK qdist q baseK τ faces).1 faces ∧
    (ds.length < baseK → (adaptiveK qdist q baseK τ faces).1 = ds.length) ∧
    (baseK ≤ ds.length →
      0 < (ds.headD dfltPair).1 →
      (ds.getD (baseK - 1) dfltPair).1 / (ds.headD dfltPair).1 > τ →
      (adaptiveK qdist q baseK τ faces).1 = min (baseK * 2) ds.length) ∧
    (baseK ≤ ds.length →
      ¬(0 < (ds.headD dfltPair).1 ∧
          (ds.getD (baseK - 1) dfltPair).1 / (ds.headD dfltPair).1 > τ) →
      (adaptiveK qdist q baseK τ faces).1 = baseK) := by
  subst hds
  have hempty : faces.isEmpty = false := by
    cases faces with
    | nil => exact absurd rfl hne
    | cons f fs => rfl
  unfold adaptiveK
  rw [hempty]
  simp only [Bool.false_eq_true, if_false]
  set ds := sortByDist (centroidDistances qdist q faces) with hds2
  by_cases hlen : ds.length < baseK
  · rw [if_pos hlen]
    refine ⟨?_, fun _ => rfl, fun h2 => absurd h2 (by omega), fun h2 => absurd h2 (by omega)⟩
    show ds.map _ = (ds.take ds.length).map _
    rw [List.take_length]
  · rw [if_neg hlen]
    by_cases hcond : 0 < (ds.headD dfltPair).1 ∧
        (ds.getD (baseK - 1) dfltPair).1 / (ds.headD dfltPair).1 > τ
    · rw [if_pos hcond]
      exact ⟨rfl, fun h2 => absurd h2 (by omega), fun _ _ _ => rfl,
        fun _ h3 => absurd hcond h3⟩
    · rw [if_neg hcond]
      refine ⟨rfl, fun h2 => absurd h2 (by omega), fun _ h1 h2 => ?_, fun _ _ => rfl⟩
      exact absurd ⟨h1, h2⟩ hcond

/-- Witness for C5: three faces, `base_k = 1`, threshold `0`; the distance
ratio exceeds the threshold and `k'` expands to `min(2, 3) = 2`. -/
theorem adaptiveK_spec_witness :
    (adaptiveK axDist (0, 0) 1 0
        [⟨"f1", some (sqRing 1 0)⟩, ⟨"f2", some (sqRing 10 0)⟩,
         ⟨"f3", some (sqRing 11 0)⟩]).2
      = kNearestNeighbors axDist (0, 0)
          (adaptiveK axDist (0, 0) 1 0
            [⟨"f1", some (sqRing 1 0)⟩, ⟨"f2", some (sqRing 10 0)⟩,
             ⟨"f3", some (sqRing 11 0)⟩]).1
          [⟨"f1", some (sqRing 1 0)⟩, ⟨"f2", some (sqRing 10 0)⟩,
           ⟨"f3", some (sqRing 11 0)⟩] :=
  (adaptiveK_spec axDist (0, 0) 1 0 _ (by simp) le_rfl _ rfl).1

/-- Counterexample to C5 as stated: with `base_k = 2`, threshold `τ = 3` and
only three faces, the distance ratio `d_k/d₁ = 10 > 3` demands `k' = 2·base_k
= 4` under the claim, but the code caps the expansion at the face count and
returns `k' = 3`.  The last conjuncts certify that `axDist` takes the true
(non-negative) Euclidean values at every centroid involved. -/
theorem adaptiveK_not_always_doubled :
    (axDist (0, 0) (centroid (sqRing 10 0)))
        / (axDist (0, 0) (centroid (sqRing 1 0))) > 3 ∧
    (adaptiveK axDist (0, 0) 2 3
        [⟨"f1", some (sqRing 1 0)⟩, ⟨"f2", some (sqRing 10 0)⟩,
         ⟨"f3", some (sqRing 11 0)⟩]).1 = 3 ∧
    (3 : ℕ) ≠ 2 * 2 ∧
    (axDist (0, 0) (centroid (sqRing 1 0))) ^ 2
      = sqEuclid (0, 0) (centroid (sqRing 1 0)) ∧
    (axDist (0, 0) (centroid (sqRing 10 0))) ^ 2
      = sqEuclid (0, 0) (centroid (sqRing 10 0)) ∧
    (axDist (0, 0) (centroid (sqRing 11 0))) ^ 2
      = sqEuclid (0, 0) (centroid (sqRing 11 0)) ∧
    0 ≤ axDist (0, 0) (centroid (sqRing 1 0)) ∧
    0 ≤ axDist (0, 0) (centroid (sqRing 10 0)) ∧
    0 ≤ axDist (0, 0) (centroid (sqRing 11 0)) := by
  refine ⟨?_, ?_, by omega, ?_, ?_, ?_, ?_, ?_, ?_⟩
  · norm_num [centroid, signedArea2, cyclicPairs, cross, axDist, sqRing]
  · norm_num [adaptiveK, centroidDistances, sortByDist, insertByDist,
      centroid, signedArea2, cyclicPairs, cross, axDist, sqRing,
      List.filterMap, dfltPair]
  all_goals
    norm_num [centroid, signedArea2, cyclicPairs, cross, axDist, sqRing, sqEuclid]

/-- `DCEL._face_lookup`: the dict maps each `facility_id` to the face stored
last under that id (later `build_from_voronoi` insertions overwrite). -/
def faceLookup (faces : List Face) (fid : String) : Option Face :=
  faces.reverse.find? (fun f => f.facilityId == fid)

/-- `DCEL.get_adjacent_facilities` (dcel.py lines 173–186): every other face
(different facility id) carrying a polygon that `touches` the looked-up face's
polygon.  The shapely `touches` predicate (boundaries meet, interiors do not)
is a parameter of the model. -/
def getAdjacentFacilities (touches : List (ℚ × ℚ) → List (ℚ × ℚ) → Bool)
    (faces : List Face) (fid : String) : List String :=
  match faceLookup faces fid with
  | none => []
  | some f =>
    match f.polygon with
    | none => []
    | some poly =>
      (faces.filter (fun g => g.facilityId != fid &&
          match g.polygon with
          | some gp => touches poly gp
          | none => false)).map (fun g => g.facilityId)

/-- The failure mode of the adjacency query. -/
inductive AdjacencyError where
  | notFound
deriving DecidableEq

/-- The adjacency query as exposed by the repository
(`routers/dcel.py`, `GET /adjacent/{facility_id}`): an id absent from the DCEL
raises a 404 error; a present id delegates to
`DCEL.get_adjacent_facilities`. -/
def adjacentQuery (touches : List (ℚ × ℚ) → List (ℚ × ℚ) → Bool)
    (faces : List Face) (fid : String) :
    Except AdjacencyError (List String) :=
  match faceLookup faces fid with
  | none => .error .notFound
  | some _ => .ok (getAdjacentFacilities touches faces fid)

lemma faceLookup_eq_none_iff (faces : List Face) (fid : String) :
    faceLookup faces fid = none ↔ ∀ f ∈ faces, f.facilityId ≠ fid := by
  unfold faceLookup
  rw [List.find?_eq_none]
  constructor
  · intro h f hf
    have := h f (List.mem_reverse.mpr hf)
    simpa using this
  · intro h f hf
    have := h f (List.mem_reverse.mp hf)
    simpa using this

/-- C7: the adjacency query errors exactly on ids absent from the DCEL, and on
a present id (with a polygon) it returns precisely the ids of the other faces
whose polygons touch that facility's polygon. -/
theorem adjacentQuery_spec (touches : List (ℚ × ℚ) → List (ℚ × ℚ) → Bool)
    (faces : List Face) (fid : String) :
    (adjacentQuery touches faces fid = Except.error AdjacencyError.notFound
        ↔ ∀ f ∈ faces, f.facilityId ≠ fid) ∧
    (∀ f poly, faceLookup faces fid = some f → f.polygon = some poly →
      adjacentQuery touches faces fid
          = Except.ok (getAdjacentFacilities touches faces fid) ∧
      (∀ gid, gid ∈ getAdjacentFacilities touches faces fid ↔
        ∃ g ∈ faces, g.facilityId = gid ∧ gid ≠ fid ∧
          ∃ gp, g.polygon = some gp ∧ touches poly gp = true)) := by
  constructor
  · rw [← faceLookup_eq_none_iff]
    unfold adjacentQuery
    cases h : faceLookup faces fid <;> simp [h]
  · intro f poly hf hpoly
    constructor
    · unfold adjacentQuery
      rw [hf]
    · intro gid
      simp only [getAdjacentFacilities, hf, hpoly]
      simp only [List.mem_map, List.mem_filter]
      constructor
      · rintro ⟨g, ⟨hg, hcond⟩, rfl⟩
        rw [Bool.and_eq_true, bne_iff_ne] at hcond
        refine ⟨g, hg, rfl, hcond.1, ?_⟩
        cases hgp : g.polygon with
        | none => rw [hgp] at hcond; simp at hcond
        | some gp =>
          rw [hgp] at hcond
          exact ⟨gp, rfl, hcond.2⟩
      · rintro ⟨g, hg, rfl, hne, gp, hgp, htouch⟩
        refine ⟨g, ⟨hg, ?_⟩, rfl⟩
        rw [Bool.and_eq_true, bne_iff_ne]
        exact ⟨hne, by rw [hgp]; exact htouch⟩

/-- Witness for C7 at a concrete DCEL: two faces with polygons under a
universally-true `touches`; the query on `"x"` succeeds and returns `["y"]`,
and the query on an absent id errors. -/
theorem adjacentQuery_spec_witness :
    (adjacentQuery (fun _ _ => true)
        [⟨"x", some (sqRing 0 0)⟩, ⟨"y", some (sqRing 1 0)⟩] "x"
      = Except.ok (getAdjacentFacilities (fun _ _ => true)
          [⟨"x", some (sqRing 0 0)⟩, ⟨"y", some (sqRing 1 0)⟩] "x") ∧
    (∀ gid, gid ∈ getAdjacentFacilities (fun _ _ => true)
          [⟨"x", some (sqRing 0 0)⟩, ⟨"y", some (sqRing 1 0)⟩] "x" ↔
        ∃ g ∈ [⟨"x", some (sqRing 0 0)⟩, (⟨"y", some (sqRing 1 0)⟩ : Face)],
          g.facilityId = gid ∧ gid ≠ "x" ∧
            ∃ gp, g.polygon = some gp ∧ (fun (_ _ : List (ℚ × ℚ)) => true) gp gp = true)) ∧
    adjacentQuery (fun _ _ => true)
        [⟨"x", some (sqRing 0 0)⟩, ⟨"y", some (sqRing 1 0)⟩] "absent"
      = Except.error AdjacencyError.notFound := by
  constructor
  · exact (adjacentQuery_spec (fun _ _ => true)
      [⟨"x", some (sqRing 0 0)⟩, ⟨"y", some (sqRing 1 0)⟩] "x").2
      ⟨"x", some (sqRing 0 0)⟩ (sqRing 0 0) (by rfl) rfl
  · exact (adjacentQuery_spec (fun _ _ => true)
      [⟨"x", some (sqRing 0 0)⟩, ⟨"y", some (sqRing 1 0)⟩] "absent").1.mpr
      (by intro f hf; fin_cases hf <;> simp)

/-- `DCEL.point_query` (dcel.py lines 118–141): among the R-tree candidate
faces — a superset of every face whose polygon could contain the point, in
unspecified order — return a face whose polygon strictly contains the query
point, else `None`.  The model scans the faces in build order; `shapely`'s
`polygon.contains(point)` (strict interior containment: boundary points are
not contained) is the `containsB` parameter. -/
def pointQuery (containsB : List (ℚ × ℚ) → ℚ × ℚ → Bool)
    (faces : List Face) (p : ℚ × ℚ) : Option Face :=
  faces.find? (fun f =>
    match f.polygon with
    | some poly => containsB poly p
    | none => false)

/-- C10: `point_query` returns a face only when the face's polygon strictly
contains the query point, and returns `None` whenever no face's polygon
strictly contains it — in particular for points on a cell border (strictly
interior to no cell) and for points outside all cells. -/
theorem pointQuery_spec (containsB : List (ℚ × ℚ) → ℚ × ℚ → Bool)
    (faces : List Face) (p : ℚ × ℚ) :
    (∀ f, pointQuery containsB faces p = some f →
      f ∈ faces ∧ ∃ poly, f.polygon = some poly ∧ containsB poly p = true) ∧
    ((∀ f ∈ faces, ∀ poly, f.polygon = some poly → containsB poly p = false) →
      pointQuery containsB faces p = none) := by
  constructor
  · intro f hf
    refine ⟨List.mem_of_find?_eq_some hf, ?_⟩
    have := List.find?_some hf
    cases hpoly : f.polygon with
    | none => rw [hpoly] at this; simp at this
    | some poly =>
      rw [hpoly] at this
      exact ⟨poly, rfl, this⟩
  · intro h
    rw [pointQuery, List.find?_eq_none]
    intro f hf
    cases hpoly : f.polygon with
    | none => simp
    | some poly =>
      have := h f hf poly hpoly
      simp [this]

/-- Witness for C10: a one-face DCEL under an always-true containment returns
that face (with its polygon and a true containment), and under an always-false
containment returns `None`. -/
theorem pointQuery_spec_witness :
    ((⟨"x", some (sqRing 0 0)⟩ : Face) ∈ [(⟨"x", some (sqRing 0 0)⟩ : Face)] ∧
      ∃ poly, (⟨"x", some (sqRing 0 0)⟩ : Face).polygon = some poly ∧
        (fun (_ : List (ℚ × ℚ)) (_ : ℚ × ℚ) => true) poly (0, 0) = true) ∧
    pointQuery (fun _ _ => false) [⟨"x", some (sqRing 0 0)⟩] (0, 0) = none := by
  constructor
  · exact (pointQuery_spec (fun _ _ => true) [⟨"x", some (sqRing 0 0)⟩] (0, 0)).1
      ⟨"x", some (sqRing 0 0)⟩ (by rfl)
  · exact (pointQuery_spec (fun _ _ => false) [⟨"x", some (sqRing 0 0)⟩] (0, 0)).2
      (by intro f hf poly hpoly; rfl)

end DCELModel

namespace AnalyticsModel

/-- Squared planar distance.  `np.linalg.norm(projected - vertex)` enters
`find_largest_empty_circle` only through order comparisons (`x ↦ √x` is
strictly monotone on `[0, ∞)`) and through the final radius, so the model
carries squared distances and bridges back through `Real.sqrt` where the
actual radius is stated. -/
def sqDist (p q : ℚ × ℚ) : ℚ := (p.1 - q.1) ^ 2 + (p.2 - q.2) ^ 2

/-- `np.min(distances)` over the facility array, squared.  The `[]` case is
unreachable: the source requires at least 3 facilities. -/
def minSqDist (facilities : List (ℚ × ℚ)) (v : ℚ × ℚ) : ℚ :=
  match facilities with
  | [] => 0
  | f :: fs => fs.foldl (fun m g => min m (sqDist v g)) (sqDist v f)

lemma foldl_min_le (v : ℚ × ℚ) (l : List (ℚ × ℚ)) (init : ℚ) :
    l.foldl (fun m g => min m (sqDist v g)) init ≤ init ∧
    ∀ g ∈ l, l.foldl (fun m g => min m (sqDist v g)) init ≤ sqDist v g := by
  induction l generalizing init with
  | nil => simp
  | cons g gs ih =>
    obtain ⟨h1, h2⟩ := ih (min init (sqDist v g))
    refine ⟨le_trans h1 (min_le_left _ _), ?_⟩
    intro g2 hg2
    rcases List.mem_cons.mp hg2 with rfl | hg2
    · exact le_trans h1 (min_le_right _ _)
    · exact h2 g2 hg2

lemma foldl_min_attained (v : ℚ × ℚ) (l : List (ℚ × ℚ)) (init : ℚ) :
    l.foldl (fun m g => min m (sqDist v g)) init = init ∨
    ∃ g ∈ l, l.foldl (fun m g => min m (sqDist v g)) init = sqDist v g := by
  induction l generalizing init with
  | nil => exact Or.inl rfl
  | cons g gs ih =>
    rcases ih (min init (sqDist v g)) with h | ⟨g2, hg2, h⟩
    · rw [List.foldl_cons, h]
      rcases le_total init (sqDist v g) with hle | hle
      · exact Or.inl (min_eq_left hle)
      · exact Or.inr ⟨g, by simp, min_eq_right hle⟩
    · exact Or.inr ⟨g2, by simp [hg2], by rw [List.foldl_cons]; exact h⟩

/-- The nearest-facility characterisation of `minSqDist`. -/
lemma minSqDist_spec (facilities : List (ℚ × ℚ)) (v : ℚ × ℚ)
    (hne : facilities ≠ []) :
    ∃ g ∈ facilities, minSqDist facilities v = sqDist v g ∧
      ∀ g2 ∈ facilities, minSqDist facilities v ≤ sqDist v g2 := by
  cases facilities with
  | nil => exact absurd rfl hne
  | cons f fs =>
    have hle := foldl_min_le v fs (sqDist v f)
    have hmem : ∀ g2 ∈ f :: fs, minSqDist (f :: fs) v ≤ sqDist v g2 := by
      intro g2 hg2
      rcases List.mem_cons.mp hg2 with rfl | hg2
      · exact hle.1
      · exact hle.2 g2 hg2
    rcases foldl_min_attained v fs (sqDist v f) with h | ⟨g, hg, h⟩
    · exact ⟨f, by simp, h, hmem⟩
    · exact ⟨g, by simp [hg], h, hmem⟩

/-- One iteration of the vertex loop of `find_largest_empty_circle`
(analytics_service.py lines 210–221): skip vertices outside the region,
otherwise replace the best candidate when the distance to the nearest facility
strictly exceeds the best radius so far (initially 0). -/
def lecStep (facilities : List (ℚ × ℚ)) (inRegion : ℚ × ℚ → Bool)
    (best : Option ((ℚ × ℚ) × ℚ)) (v : ℚ × ℚ) : Option ((ℚ × ℚ) × ℚ) :=
  if !(inRegion v) then best
  else
    let m := minSqDist facilities v
    let br := match best with | none => 0 | some pr => pr.2
    if br < m then some (v, m) else best

/-- `AnalyticsService.find_largest_empty_circle` (analytics_service.py lines
166–234), with the scipy Voronoi vertex array and the projected boundary
containment predicate as parameters; radii are carried squared. -/
def findLargestEmptyCircle (facilities : List (ℚ × ℚ))
    (vertices : List (ℚ × ℚ)) (inRegion : ℚ × ℚ → Bool) :
    Option ((ℚ × ℚ) × ℚ) :=
  if facilities.length < 3 then none
  else vertices.foldl (lecStep facilities inRegion) none

lemma lecFold_some (facilities : List (ℚ × ℚ)) (inRegion : ℚ × ℚ → Bool) :
    ∀ (vs : List (ℚ × ℚ)) (acc : Option ((ℚ × ℚ) × ℚ)) (c : ℚ × ℚ) (r2 : ℚ),
      vs.foldl (lecStep facilities inRegion) acc = some (c, r2) →
      acc = some (c, r2) ∨
        (c ∈ vs ∧ inRegion c = true ∧ r2 = minSqDist facilities c) := by
  intro vs
  induction vs with
  | nil => intro acc c r2 h; exact Or.inl h
  | cons v vs ih =>
    intro acc c r2 h
    rw [List.foldl_cons] at h
    rcases ih _ c r2 h with hstep | ⟨hc, hin, hr⟩
    · unfold lecStep at hstep
      by_cases hreg : inRegion v
      · rw [hreg] at hstep
        simp only [Bool.not_true, Bool.false_eq_true, if_false] at hstep
        split at hstep
        · simp only [Option.some.injEq, Prod.mk.injEq] at hstep
          obtain ⟨rfl, rfl⟩ := hstep
          exact Or.inr ⟨by simp, hreg, rfl⟩
        · exact Or.inl hstep
      · rw [Bool.not_eq_true] at hreg
        rw [hreg] at hstep
        simp only [Bool.not_false, if_true] at hstep
        exact Or.inl hstep
    · exact Or.inr ⟨by simp [hc], hin, hr⟩

lemma lecFold_none (facilities : List (ℚ × ℚ)) (inRegion : ℚ × ℚ → Bool) :
    ∀ (vs : List (ℚ × ℚ)) (acc : Option ((ℚ × ℚ) × ℚ)),
      (∀ v ∈ vs, inRegion v = false) →
      vs.foldl (lecStep facilities inRegion) acc = acc := by
  intro vs
  induction vs with
  | nil => intro acc _; rfl
  | cons v vs ih =>
    intro acc h
    rw [List.foldl_cons]
    have hv : inRegion v = false := h v (by simp)
    have hstep : lecStep facilities inRegion acc v = acc := by
      unfold lecStep
      rw [hv]
      simp
    rw [hstep]
    exact ih acc (fun v2 hv2 => h v2 (by simp [hv2]))

/-- C4: whenever `find_largest_empty_circle` returns a non-null centre, that
centre is one of the Voronoi vertices, lies strictly inside the region
(shapely `contains`), and the returned radius is the distance from the centre
to its nearest generator; and when no Voronoi vertex lies inside the region an
empty result is returned. -/
theorem findLargestEmptyCircle_spec (facilities : List (ℚ × ℚ))
    (vertices : List (ℚ × ℚ)) (inRegion : ℚ × ℚ → Bool) :
    (∀ c r2, findLargestEmptyCircle facilities vertices inRegion = some (c, r2) →
      c ∈ vertices ∧ inRegion c = true ∧ r2 = minSqDist facilities c ∧
      ∃ g ∈ facilities, Real.sqrt (r2 : ℝ) = Real.sqrt ((sqDist c g : ℚ) : ℝ) ∧
        ∀ g2 ∈ facilities,
          Real.sqrt (r2 : ℝ) ≤ Real.sqrt ((sqDist c g2 : ℚ) : ℝ)) ∧
    ((∀ v ∈ vertices, inRegion v = false) →
      findLargestEmptyCircle facilities vertices inRegion = none) := by
  constructor
  · intro c r2 h
    unfold findLargestEmptyCircle at h
    split at h
    · exact absurd h (by simp)
    · rename_i hlen
      rcases lecFold_some facilities inRegion vertices none c r2 h with h2 | ⟨hc, hin, hr⟩
      · exact absurd h2 (by simp)
      · have hne : facilities ≠ [] := by
          intro hnil
          rw [hnil] at hlen
          exact hlen (by simp)
        obtain ⟨g, hg, hgeq, hgmin⟩ := minSqDist_spec facilities c hne
        refine ⟨hc, hin, hr, g, hg, by rw [hr, hgeq], ?_⟩
        intro g2 hg2
        apply Real.sqrt_le_sqrt
        rw [hr]
        exact_mod_cast hgmin g2 hg2
  · intro h
    unfold findLargestEmptyCircle
    split
    · rfl
    · exact lecFold_none facilities inRegion vertices none h

/-- Witness for C4: three facilities, one Voronoi vertex equidistant from all
of them inside the region: the returned centre is that vertex and the squared
radius is the squared nearest-generator distance 8; with the region test
everywhere false the result is empty. -/
theorem findLargestEmptyCircle_spec_witness :
    ((2, 2) ∈ [((2 : ℚ), (2 : ℚ))] ∧
      (fun (_ : ℚ × ℚ) => true) (2, 2) = true ∧
      (8 : ℚ) = minSqDist [(0, 0), (4, 0), (0, 4)] (2, 2) ∧
      ∃ g ∈ [((0 : ℚ), (0 : ℚ)), (4, 0), (0, 4)],
        Real.sqrt ((8 : ℚ) : ℝ) = Real.sqrt ((sqDist (2, 2) g : ℚ) : ℝ) ∧
        ∀ g2 ∈ [((0 : ℚ), (0 : ℚ)), (4, 0), (0, 4)],
          Real.sqrt ((8 : ℚ) : ℝ) ≤ Real.sqrt ((sqDist (2, 2) g2 : ℚ) : ℝ)) ∧
    findLargestEmptyCircle [(0, 0), (4, 0), (0, 4)] [(2, 2)]
        (fun _ => false) = none := by
  constructor
  · apply (findLargestEmptyCircle_spec [(0, 0), (4, 0), (0, 4)] [(2, 2)]
      (fun _ => true)).1 (2, 2) 8
    norm_num [findLargestEmptyCircle, lecStep, minSqDist, sqDist]
  · exact (findLargestEmptyCircle_spec [(0, 0), (4, 0), (0, 4)] [(2, 2)]
      (fun _ => false)).2 (by intro v hv; rfl)

end AnalyticsModel

namespace EngineModel

/-- Shoelace cross term of one edge. -/
def cross (p q : ℚ × ℚ) : ℚ := p.1 * q.2 - q.1 * p.2

/-- Consecutive vertex pairs of a ring, wrapping around to the start. -/
def cyclicPairs : List (ℚ × ℚ) → List ((ℚ × ℚ) × (ℚ × ℚ))
  | [] => []
  | x :: xs => (x :: xs).zip (xs ++ [x])

/-- `polygon.area` of a simple ring (shapely: absolute shoelace area). -/
def ringArea (ring : List (ℚ × ℚ)) : ℚ :=
  |((cyclicPairs ring).map (fun pq => cross pq.1 pq.2)).sum| / 2

/-- A shapely geometry as it can come out of `poly.intersection(bounding_box)`
in `VoronoiEngine._clip_polygon`: a polygon (exterior ring), a multi-polygon,
an empty geometry, or some other geometry type (`LineString`,
`GeometryCollection`, …) which carries the stated area. -/
inductive Geom where
  | polygon (ring : List (ℚ × ℚ))
  | multiPolygon (rings : List (List (ℚ × ℚ)))
  | emptyGeom
  | other (area : ℚ)
deriving DecidableEq

/-- `geometry.is_empty`. -/
def Geom.isEmpty : Geom → Bool
  | .emptyGeom => true
  | _ => false

/-- `geometry.area`. -/
def Geom.area : Geom → ℚ
  | .polygon r => ringArea r
  | .multiPolygon rs => (rs.map ringArea).sum
  | .emptyGeom => 0
  | .other a => a

/-- Python's `max(geoms, key=lambda p: p.area)`: the first element attaining
the maximal area (later elements replace the running best only when strictly
larger).  `none` exactly when the sequence is empty (where `max` raises). -/
def maxByArea : List (List (ℚ × ℚ)) → Option (List (ℚ × ℚ))
  | [] => none
  | r :: rs => some (rs.foldl (fun best x =>
      if ringArea x > ringArea best then x else best) r)

lemma list_sum_nonpos {l : List ℚ} (h : ∀ y ∈ l, y ≤ 0) : l.sum ≤ 0 := by
  induction l with
  | nil => simp
  | cons z zs ih =>
    simp only [List.sum_cons]
    have h1 := h z (by simp)
    have h2 := ih (fun y hy => h y (by simp [hy]))
    linarith

lemma maxByArea_spec (rs : List (List (ℚ × ℚ))) (r : List (ℚ × ℚ))
    (h : maxByArea rs = some r) :
    r ∈ rs ∧ ∀ x ∈ rs, ringArea x ≤ ringArea r := by
  cases rs with
  | nil => exact absurd h (by simp [maxByArea])
  | cons r0 rest =>
    simp only [maxByArea, Option.some.injEq] at h
    subst h
    induction rest generalizing r0 with
    | nil => simp
    | cons x xs ih =>
      rw [List.foldl_cons]
      obtain ⟨hmem, hmax⟩ := ih (if ringArea x > ringArea r0 then x else r0)
      constructor
      · rcases List.mem_cons.mp hmem with heq | hmem2
        · rw [heq]
          split
          · exact List.mem_cons_of_mem _ (List.mem_cons_self _ _)
          · exact List.mem_cons_self _ _
        · exact List.mem_cons_of_mem _ (List.mem_cons_of_mem _ hmem2)
      · intro y hy
        rcases List.mem_cons.mp hy with rfl | hy
        · refine le_trans ?_ (hmax _ (List.mem_cons_self _ _))
          split
          · rename_i hlt
            exact le_of_lt hlt
          · exact le_refl _
        · rcases List.mem_cons.mp hy with rfl | hy
          · refine le_trans ?_ (hmax _ (List.mem_cons_self _ _))
            split
            · exact le_refl _
            · rename_i hlt
              push_neg at hlt
              exact hlt
          · exact hmax y (List.mem_cons_of_mem _ hy)

/-- `VoronoiEngine._clip_polygon` (voronoi_engine.py lines 311–323), with the
shapely intersection operation as the parameter `inter`:
empty or zero-area intersections yield `None`; a multi-polygon intersection is
replaced by its largest piece; the final `isinstance(clipped, Polygon) and
clipped.area > 0` guard re-checks the piece; any other geometry type falls
through to `None`. -/
def clipPolygon (inter : Geom → Geom → Geom) (poly bbox : Geom) : Option Geom :=
  let clipped := inter poly bbox
  if clipped.isEmpty || clipped.area ≤ 0 then none
  else
    match clipped with
    | .multiPolygon rs =>
      match maxByArea rs with
      | none => none
      | some r => if ringArea r > 0 then some (.polygon r) else none
    | .polygon r => if ringArea r > 0 then some (.polygon r) else none
    | _ => none

/-- The per-region emission step of `VoronoiEngine._voronoi_regions`
(voronoi_engine.py lines 224–229 and 284–287): a region whose reconstructed
polygon is missing (`_make_valid_polygon` returned `None`) or whose clip is
`None` contributes no feature. -/
def emitCell (inter : Geom → Geom → Geom) (bbox : Geom) (pointIdx : ℕ)
    (reconstructed : Option Geom) : Option (ℕ × Geom) :=
  match reconstructed with
  | none => none
  | some poly => (clipPolygon inter poly bbox).map (fun c => (pointIdx, c))

/-- `VoronoiEngine._voronoi_regions`: one emission attempt per site, in site
order; `reconstruct` abstracts the float-geometry reconstruction of each
(possibly unbounded) region from the scipy Voronoi output. -/
def voronoiRegions (inter : Geom → Geom → Geom) (bbox : Geom)
    (reconstruct : ℕ → Option Geom) (n : ℕ) : List (ℕ × Geom) :=
  (List.range n).filterMap (fun i => emitCell inter bbox i (reconstruct i))

/-- The error taxonomy relevant to `compute_voronoi`. -/
inductive VoronoiError where
  | invalidInput
deriving DecidableEq

/-- `VoronoiEngine.compute_voronoi` (voronoi_engine.py lines 325–406):
fewer than 3 coordinates raise `ValueError("Need at least 3 points for
Voronoi")` (the spec's `InvalidInput`); otherwise the clipped regions are
emitted. -/
def computeVoronoi (coords : List (ℚ × ℚ)) (inter : Geom → Geom → Geom)
    (bbox : Geom) (reconstruct : ℕ → Option Geom) :
    Except VoronoiError (List (ℕ × Geom)) :=
  if coords.length < 3 then .error .invalidInput
  else .ok (voronoiRegions inter bbox reconstruct coords.length)

/-- `WeightedVoronoiEngine.compute` (weighted_voronoi.py lines 87–88): fewer
than 3 facilities raise `ValueError("Need at least 3 facilities")`; otherwise
the engine first runs the Euclidean `compute_voronoi_with_dcel` on one
coordinate per facility (same length). -/
def weightedCompute (facilities : List (ℚ × ℚ)) (inter : Geom → Geom → Geom)
    (bbox : Geom) (reconstruct : ℕ → Option Geom) :
    Except VoronoiError (List (ℕ × Geom)) :=
  if facilities.length < 3 then .error .invalidInput
  else computeVoronoi facilities inter bbox reconstruct

/-- C8: both the Euclidean Voronoi computation and the weighted mode built on
it fail with `InvalidInput` exactly on inputs with fewer than 3 generators —
so no diagram is produced there, and with 3 or more generators this error is
never raised. -/
theorem computeVoronoi_invalidInput_iff (coords : List (ℚ × ℚ))
    (inter : Geom → Geom → Geom) (bbox : Geom) (reconstruct : ℕ → Option Geom) :
    (computeVoronoi coords inter bbox reconstruct = .error .invalidInput
        ↔ coords.length < 3) ∧
    (weightedCompute coords inter bbox reconstruct = .error .invalidInput
        ↔ coords.length < 3) ∧
    (3 ≤ coords.length →
      computeVoronoi coords inter bbox reconstruct
          = .ok (voronoiRegions inter bbox reconstruct coords.length) ∧
      weightedCompute coords inter bbox reconstruct
          = .ok (voronoiRegions inter bbox reconstruct coords.length)) := by
  refine ⟨?_, ?_, ?_⟩
  · unfold computeVoronoi
    by_cases h : coords.length < 3
    · rw [if_pos h]
      exact iff_of_true rfl h
    · rw [if_neg h]
      exact iff_of_false (by simp) h
  · unfold weightedCompute computeVoronoi
    by_cases h : coords.length < 3
    · rw [if_pos h]
      exact iff_of_true rfl h
    · rw [if_neg h, if_neg h]
      exact iff_of_false (by simp) h
  · intro h3
    have hnot : ¬ coords.length < 3 := by omega
    unfold weightedCompute computeVoronoi
    rw [if_neg hnot, if_neg hnot]
    exact ⟨rfl, rfl⟩

/-- Witness for C8: two generators are rejected by both engines, three are
accepted. -/
theorem computeVoronoi_invalidInput_iff_witness :
    computeVoronoi [(0, 0), (1, 0)] (fun g _ => g) Geom.emptyGeom
        (fun _ => none) = .error .invalidInput ∧
    weightedCompute [(0, 0), (1, 0)] (fun g _ => g) Geom.emptyGeom
        (fun _ => none) = .error .invalidInput ∧
    computeVoronoi [(0, 0), (1, 0), (0, 1)] (fun g _ => g) Geom.emptyGeom
        (fun _ => none)
      = .ok (voronoiRegions (fun g _ => g) Geom.emptyGeom (fun _ => none) 3) := by
  refine ⟨?_, ?_, ?_⟩
  · exact (computeVoronoi_invalidInput_iff [(0, 0), (1, 0)] _ _ _).1.mpr (by simp)
  · exact (computeVoronoi_invalidInput_iff [(0, 0), (1, 0)] _ _ _).2.1.mpr (by simp)
  · exact ((computeVoronoi_invalidInput_iff [(0, 0), (1, 0), (0, 1)] _ _ _).2.2
      (by simp)).1

/-- C9: the clipping step returns the intersection with the boundary — the
largest piece when the intersection is a multi-polygon — and discards the cell
(no feature is emitted) when the intersection is empty or has zero area. -/
theorem clipPolygon_spec (inter : Geom → Geom → Geom) (poly bbox : Geom)
    (i : ℕ) :
    ((inter poly bbox).isEmpty = true ∨ (inter poly bbox).area ≤ 0 →
      clipPolygon inter poly bbox = none ∧
      emitCell inter bbox i (some poly) = none) ∧
    (∀ ring, inter poly bbox = .polygon ring → 0 < ringArea ring →
      clipPolygon inter poly bbox = some (.polygon ring) ∧
      emitCell inter bbox i (some poly) = some (i, .polygon ring)) ∧
    (∀ rings, inter poly bbox = .multiPolygon rings →
      0 < (inter poly bbox).area →
      ∃ r, clipPolygon inter poly bbox = some (.polygon r) ∧
        emitCell inter bbox i (some poly) = some (i, .polygon r) ∧
        r ∈ rings ∧ ∀ x ∈ rings, ringArea x ≤ ringArea r) := by
  refine ⟨?_, ?_, ?_⟩
  · intro h
    have hcond : ((inter poly bbox).isEmpty || decide ((inter poly bbox).area ≤ 0)) = true := by
      rcases h with h | h
      · simp [h]
      · simp [h]
    have hclip : clipPolygon inter poly bbox = none := by
      unfold clipPolygon
      simp only [hcond]
      rfl
    exact ⟨hclip, by simp [emitCell, hclip]⟩
  · intro ring hring hpos
    have hclip : clipPolygon inter poly bbox = some (.polygon ring) := by
      unfold clipPolygon
      rw [hring]
      rw [if_neg (by simp [Geom.isEmpty, Geom.area]; linarith)]
      show (if ringArea ring > 0 then some (Geom.polygon ring) else none)
          = some (Geom.polygon ring)
      rw [if_pos hpos]
    exact ⟨hclip, by simp [emitCell, hclip]⟩
  · intro rings hrings hpos
    rw [hrings] at hpos
    have hnonempty : rings ≠ [] := by
      intro hnil
      rw [hnil] at hpos
      simp [Geom.area] at hpos
    obtain ⟨r0, rest, rfl⟩ := List.exists_cons_of_ne_nil hnonempty
    obtain ⟨r, hr⟩ : ∃ r, maxByArea (r0 :: rest) = some r := ⟨_, rfl⟩
    obtain ⟨hmem, hmax⟩ := maxByArea_spec _ _ hr
    have hrpos : 0 < ringArea r := by
      by_contra hle
      push_neg at hle
      have hall : ∀ x ∈ r0 :: rest, ringArea x ≤ 0 :=
        fun x hx => le_trans (hmax x hx) hle
      have hsum : ((r0 :: rest).map ringArea).sum ≤ 0 := by
        apply list_sum_nonpos
        intro y hymem
        obtain ⟨x, hx, rfl⟩ := List.mem_map.mp hymem
        exact hall x hx
      simp only [Geom.area] at hpos
      linarith
    have hclip : clipPolygon inter poly bbox = some (.polygon r) := by
      unfold clipPolygon
      rw [hrings]
      rw [if_neg (by simp only [Geom.isEmpty, Geom.area, Bool.false_or,
        decide_eq_true_eq]; simp only [Geom.area] at hpos; linarith)]
      show (match maxByArea (r0 :: rest) with
        | none => none
        | some r => if ringArea r > 0 then some (Geom.polygon r) else none)
          = some (Geom.polygon r)
      rw [hr]
      show (if ringArea r > 0 then some (Geom.polygon r) else none)
          = some (Geom.polygon r)
      rw [if_pos hrpos]
    exact ⟨r, hclip, by simp [emitCell, hclip], hmem, hmax⟩

/-- Witness for C9 at concrete geometries: a positive-area polygon
intersection is returned as-is; a two-piece multi-polygon intersection is
reduced to its larger piece; an empty intersection emits nothing. -/
theorem clipPolygon_spec_witness :
    (clipPolygon (fun _ _ => Geom.polygon [(0, 0), (1, 0), (0, 1)])
        (Geom.polygon [(0, 0), (9, 0), (0, 9)]) (Geom.polygon [(0, 0), (1, 0), (0, 1)])
      = some (Geom.polygon [(0, 0), (1, 0), (0, 1)])) ∧
    (∃ r, clipPolygon
        (fun _ _ => Geom.multiPolygon [[(0, 0), (1, 0), (0, 1)], [(0, 0), (4, 0), (0, 4)]])
        (Geom.polygon [(0, 0), (9, 0), (0, 9)]) Geom.emptyGeom
        = some (Geom.polygon r) ∧
      emitCell (fun _ _ => Geom.multiPolygon [[(0, 0), (1, 0), (0, 1)], [(0, 0), (4, 0), (0, 4)]])
        Geom.emptyGeom 7 (some (Geom.polygon [(0, 0), (9, 0), (0, 9)]))
        = some (7, Geom.polygon r) ∧
      r ∈ [[((0 : ℚ), (0 : ℚ)), (1, 0), (0, 1)], [(0, 0), (4, 0), (0, 4)]] ∧
      ∀ x ∈ [[((0 : ℚ), (0 : ℚ)), (1, 0), (0, 1)], [(0, 0), (4, 0), (0, 4)]],
        ringArea x ≤ ringArea r) ∧
    (emitCell (fun _ _ => Geom.emptyGeom) Geom.emptyGeom 0
        (some (Geom.polygon [(0, 0), (9, 0), (0, 9)])) = none) := by
  refine ⟨?_, ?_, ?_⟩
  · exact ((clipPolygon_spec _ _ _ 0).2.1 [(0, 0), (1, 0), (0, 1)] rfl
      (by norm_num [ringArea, cyclicPairs, cross])).1
  · obtain ⟨r, h1, h2, h3, h4⟩ := (clipPolygon_spec
      (fun _ _ => Geom.multiPolygon [[(0, 0), (1, 0), (0, 1)], [(0, 0), (4, 0), (0, 4)]])
      (Geom.polygon [(0, 0), (9, 0), (0, 9)]) Geom.emptyGeom 7).2.2
      [[(0, 0), (1, 0), (0, 1)], [(0, 0), (4, 0), (0, 4)]] rfl
      (by norm_num [Geom.area, ringArea, cyclicPairs, cross])
    exact ⟨r, h1, h2, h3, h4⟩
  · exact ((clipPolygon_spec (fun _ _ => Geom.emptyGeom)
      (Geom.polygon [(0, 0), (9, 0), (0, 9)]) Geom.emptyGeom 0).1
      (Or.inl rfl)).2

end EngineModel

namespace WeightedModel

/-- `np.linspace(lo, hi, n)`, as used to build the sampling grid in
`WeightedVoronoiEngine._compute_weighted_voronoi`. -/
def linspace (lo hi : ℚ) (n : ℕ) : List ℚ :=
  (List.range n).map (fun i => lo + (hi - lo) * i / ((n : ℚ) - 1))

/-- The dense 100×100 sampling grid over the boundary bounds
(weighted_voronoi.py lines 307–312, 330–331), x outer loop, y inner loop. -/
def gridPoints (minx miny maxx maxy : ℚ) : List (ℚ × ℚ) :=
  (linspace minx maxx 100).flatMap (fun x =>
    (linspace miny maxy 100).map (fun y => (x, y)))

/-- The parameters of `_compute_weighted_voronoi` that do not depend on the
penalties:
 * `dist` — `_euclidean_distance_meters` (transcendental: `cos`, `sqrt`);
 * `facCoords` — the `fac_coords` dict;
 * `facilityIds` — the facility id list indexed by the k-d tree;
 * `candIdx` — the indices returned by `tree.query(point, k=min(20, n))`
   (the k-d tree is built from coordinates only);
 * `containsB` — `boundary.contains(point)`;
 * `bounds` — `boundary.bounds`;
 * `boundarySet` — the clip region of `hull.intersection(boundary)`, as a
   subset of the real plane. -/
structure Config where
  dist : ℚ × ℚ → ℚ × ℚ → ℚ
  facCoords : String → ℚ × ℚ
  facilityIds : List String
  candIdx : ℚ × ℚ → List ℕ
  containsB : ℚ × ℚ → Bool
  bounds : ℚ × ℚ × ℚ × ℚ
  boundarySet : Set (ℝ × ℝ)

/-- The facility id of candidate index `idx` (`facility_ids[idx]`); the
out-of-range default is never produced by `tree.query`. -/
def candFid (facilityIds : List String) (idx : ℕ) : String :=
  facilityIds.getD idx ""

/-- The weighted distance of one candidate at one grid point
(weighted_voronoi.py lines 344–352):
`euclidean_distance + penalties.get(fid, 0)`. -/
def candidateWeight (cfg : Config) (penalties : String → ℚ) (p : ℚ × ℚ)
    (idx : ℕ) : ℚ :=
  cfg.dist p (cfg.facCoords (candFid cfg.facilityIds idx))
    + penalties (candFid cfg.facilityIds idx)

/-- The candidate loop of lines 340–356: starting from
`min_dist = float('inf')`, `best_fid = None` (`acc = none`), each candidate
replaces the best exactly when its weighted distance is strictly smaller. -/
def runMin (w : ℕ → ℚ) (fid : ℕ → String) (idxs : List ℕ)
    (acc : Option (ℚ × String)) : Option (ℚ × String) :=
  match idxs with
  | [] => acc
  | i :: is =>
    runMin w fid is
      (match acc with
       | none => some (w i, fid i)
       | some (m, b) => if w i < m then some (w i, fid i) else some (m, b))

/-- First index attaining the minimum weight (ties keep the earlier index) —
the recursion-friendly characterisation of `runMin`. -/
def firstMin (w : ℕ → ℚ) : List ℕ → Option ℕ
  | [] => none
  | i :: is =>
    match firstMin w is with
    | none => some i
    | some j => if w j < w i then some j else some i

lemma firstMin_cons_isSome (w : ℕ → ℚ) (i : ℕ) (is : List ℕ) :
    ∃ j, firstMin w (i :: is) = some j := by
  show ∃ j, (match firstMin w is with
    | none => some i
    | some j => if w j < w i then some j else some i) = some j
  cases firstMin w is with
  | none => exact ⟨i, rfl⟩
  | some j =>
    by_cases hj : w j < w i
    · refine ⟨j, ?_⟩
      show (if w j < w i then some j else some i) = some j
      rw [if_pos hj]
    · refine ⟨i, ?_⟩
      show (if w j < w i then some j else some i) = some i
      rw [if_neg hj]

lemma firstMin_eq_none_iff (w : ℕ → ℚ) (l : List ℕ) :
    firstMin w l = none ↔ l = [] := by
  cases l with
  | nil => simp [firstMin]
  | cons i is =>
    obtain ⟨j, hj⟩ := firstMin_cons_isSome w i is
    rw [hj]
    constructor
    · intro h
      exact Option.noConfusion h
    · intro h
      exact List.noConfusion h

lemma runMin_some (w : ℕ → ℚ) (fid : ℕ → String) :
    ∀ (l : List ℕ) (m : ℚ) (b : String),
      runMin w fid l (some (m, b))
        = match firstMin w l with
          | none => some (m, b)
          | some j => if w j < m then some (w j, fid j) else some (m, b) := by
  intro l
  induction l with
  | nil => intro m b; rfl
  | cons i is ih =>
    intro m b
    show runMin w fid is
        (if w i < m then some (w i, fid i) else some (m, b))
      = (match firstMin w (i :: is) with
         | none => some (m, b)
         | some j => if w j < m then some (w j, fid j) else some (m, b))
    simp only [firstMin]
    cases hfm : firstMin w is with
    | none =>
      by_cases him : w i < m
      · rw [if_pos him, ih, hfm]
        show some (w i, fid i) = (if w i < m then some (w i, fid i) else some (m, b))
        rw [if_pos him]
      · rw [if_neg him, ih, hfm]
        show some (m, b) = (if w i < m then some (w i, fid i) else some (m, b))
        rw [if_neg him]
    | some j =>
      by_cases him : w i < m
      · rw [if_pos him, ih, hfm]
        by_cases hj : w j < w i
        · show (if w j < w i then some (w j, fid j) else some (w i, fid i))
            = (match (if w j < w i then some j else some i) with
               | none => some (m, b)
               | some j => if w j < m then some (w j, fid j) else some (m, b))
          rw [if_pos hj, if_pos hj]
          show _ = (if w j < m then some (w j, fid j) else some (m, b))
          rw [if_pos (lt_trans hj him)]
        · show (if w j < w i then some (w j, fid j) else some (w i, fid i))
            = (match (if w j < w i then some j else some i) with
               | none => some (m, b)
               | some j => if w j < m then some (w j, fid j) else some (m, b))
          rw [if_neg hj, if_neg hj]
          show _ = (if w i < m then some (w i, fid i) else some (m, b))
          rw [if_pos him]
      · rw [if_neg him, ih, hfm]
        push_neg at him
        by_cases hj : w j < w i
        · show (if w j < m then some (w j, fid j) else some (m, b))
            = (match (if w j < w i then some j else some i) with
               | none => some (m, b)
               | some j => if w j < m then some (w j, fid j) else some (m, b))
          rw [if_pos hj]
        · show (if w j < m then some (w j, fid j) else some (m, b))
            = (match (if w j < w i then some j else some i) with
               | none => some (m, b)
               | some j => if w j < m then some (w j, fid j) else some (m, b))
          rw [if_neg hj]
          push_neg at hj
          show _ = (if w i < m then some (w i, fid i) else some (m, b))
          rw [if_neg (by push_neg; exact le_trans him hj),
            if_neg (by push_neg; exact him)]

lemma runMin_none_eq (w : ℕ → ℚ) (fid : ℕ → String) (l : List ℕ) :
    runMin w fid l none
      = (firstMin w l).map (fun j => (w j, fid j)) := by
  cases l with
  | nil => rfl
  | cons i is =>
    show runMin w fid is (some (w i, fid i)) = _
    rw [runMin_some]
    show (match firstMin w is with
      | none => some (w i, fid i)
      | some j => if w j < w i then some (w j, fid j) else some (w i, fid i)) = _
    cases hfm : firstMin w is with
    | none => simp [firstMin, hfm]
    | some j =>
      simp only [firstMin, hfm]
      by_cases hj : w j < w i
      · rw [if_pos hj, if_pos hj]
        rfl
      · rw [if_neg hj, if_neg hj]
        rfl

lemma firstMin_min (w : ℕ → ℚ) :
    ∀ (l : List ℕ) (j : ℕ), firstMin w l = some j →
      j ∈ l ∧ ∀ i ∈ l, w j ≤ w i := by
  intro l
  induction l with
  | nil => intro j h; exact Option.noConfusion h
  | cons i is ih =>
    intro j h
    replace h : (match firstMin w is with
        | none => some i
        | some j => if w j < w i then some j else some i) = some j := h
    cases hfm : firstMin w is with
    | none =>
      rw [hfm] at h
      replace h : some i = some j := h
      obtain rfl : i = j := Option.some.inj h
      have hnil : is = [] := (firstMin_eq_none_iff w is).mp hfm
      subst hnil
      refine ⟨by simp, ?_⟩
      intro x hx
      rcases List.mem_cons.mp hx with rfl | hx
      · exact le_refl _
      · exact absurd hx (by simp)
    | some j0 =>
      rw [hfm] at h
      replace h : (if w j0 < w i then some j0 else some i) = some j := h
      obtain ⟨hj0mem, hj0min⟩ := ih j0 hfm
      by_cases hlt : w j0 < w i
      · rw [if_pos hlt] at h
        obtain rfl : j0 = j := Option.some.inj h
        refine ⟨List.mem_cons_of_mem _ hj0mem, ?_⟩
        intro x hx
        rcases List.mem_cons.mp hx with rfl | hx
        · exact le_of_lt hlt
        · exact hj0min x hx
      · rw [if_neg hlt] at h
        push_neg at hlt
        obtain rfl : i = j := Option.some.inj h
        refine ⟨by simp, ?_⟩
        intro x hx
        rcases List.mem_cons.mp hx with rfl | hx
        · exact le_refl _
        · exact le_trans hlt (hj0min x hx)

/-- The tie-consistency core of the monotonicity argument: raising the
penalty of facility `F` alone (all candidate weights of `F`-candidates go up
by the same `δ ≥ 0`, all others unchanged) can never make `F` a winner it was
not already. -/
lemma firstMin_transfer (w w2 : ℕ → ℚ) (fid : ℕ → String) (F : String)
    (δ : ℚ) (hδ : 0 ≤ δ)
    (hw : ∀ i, w2 i = w i + (if fid i = F then δ else 0)) :
    ∀ (l : List ℕ) (j2 : ℕ), firstMin w2 l = some j2 → fid j2 = F →
      ∃ j, firstMin w l = some j ∧ fid j = F := by
  intro l
  induction l with
  | nil => intro j2 h; exact Option.noConfusion h
  | cons i is ih =>
    intro j2 h hF
    replace h : (match firstMin w2 is with
        | none => some i
        | some j => if w2 j < w2 i then some j else some i) = some j2 := h
    cases hfm2 : firstMin w2 is with
    | none =>
      -- the tail is empty, so both runs pick the head
      rw [hfm2] at h
      replace h : some i = some j2 := h
      obtain rfl : i = j2 := Option.some.inj h
      have hnil : is = [] := (firstMin_eq_none_iff w2 is).mp hfm2
      subst hnil
      exact ⟨i, rfl, hF⟩
    | some j2t =>
      rw [hfm2] at h
      replace h : (if w2 j2t < w2 i then some j2t else some i) = some j2 := h
      have hne : is ≠ [] := by
        intro hnil
        rw [hnil] at hfm2
        exact Option.noConfusion hfm2
      obtain ⟨i0, is0, rfl⟩ := List.exists_cons_of_ne_nil hne
      obtain ⟨jt, hjt⟩ := firstMin_cons_isSome w i0 is0
      obtain ⟨hj2t_mem, hj2t_min⟩ := firstMin_min w2 _ _ hfm2
      obtain ⟨hjt_mem, hjt_min⟩ := firstMin_min w _ _ hjt
      by_cases hlt2 : w2 j2t < w2 i
      · -- the new run is won by the tail's winner `j2t` (so `fid j2t = F`)
        rw [if_pos hlt2] at h
        obtain rfl : j2t = j2 := Option.some.inj h
        obtain ⟨j, hjeq, hjF⟩ := ih j2t hfm2 hF
        obtain rfl : j = jt := by
          rw [hjeq] at hjt
          exact Option.some.inj hjt
        show ∃ j3, (match firstMin w (i0 :: is0) with
           | none => some i
           | some j3 => if w j3 < w i then some j3 else some i)
             = some j3 ∧ fid j3 = F
        rw [hjt]
        by_cases hlt : w j < w i
        · show ∃ j3, (if w j < w i then some j else some i) = some j3 ∧ fid j3 = F
          rw [if_pos hlt]
          exact ⟨j, rfl, hjF⟩
        · show ∃ j3, (if w j < w i then some j else some i) = some j3 ∧ fid j3 = F
          rw [if_neg hlt]
          push_neg at hlt
          refine ⟨i, rfl, ?_⟩
          by_contra hiF
          -- fid i ≠ F keeps the head's weight, while the tail winner carries
          -- the full raise: its old weight is at least the old tail minimum,
          -- so the strict new-run win forces δ < 0: impossible
          have hw2i : w2 i = w i := by rw [hw i, if_neg hiF]; ring
          have hw2j2 : w2 j2t = w j2t + δ := by rw [hw j2t, if_pos hF]
          have h1 : w j ≤ w j2t := hjt_min j2t hj2t_mem
          linarith
      · -- the new run is won by its head `i` (so `fid i = F`)
        rw [if_neg hlt2] at h
        push_neg at hlt2
        obtain rfl : i = j2 := Option.some.inj h
        show ∃ j3, (match firstMin w (i0 :: is0) with
           | none => some i
           | some j3 => if w j3 < w i then some j3 else some i)
             = some j3 ∧ fid j3 = F
        rw [hjt]
        by_cases hlt : w jt < w i
        · show ∃ j3, (if w jt < w i then some jt else some i) = some j3 ∧ fid j3 = F
          rw [if_pos hlt]
          refine ⟨jt, rfl, ?_⟩
          by_contra hjtF
          -- fid jt ≠ F: its weight is unchanged, so the new tail minimum is
          -- at most w jt < w (head) ≤ w2 (head), contradicting the head's win
          have hw2jt : w2 jt = w jt := by rw [hw jt, if_neg hjtF]; ring
          have hw2i : w i ≤ w2 i := by
            rw [hw i]
            split
            · linarith
            · linarith
          have h1 : w2 j2t ≤ w2 jt := hj2t_min jt hjt_mem
          linarith
        · show ∃ j3, (if w jt < w i then some jt else some i) = some j3 ∧ fid j3 = F
          rw [if_neg hlt]
          exact ⟨i, rfl, hF⟩

/-- The winning facility at one grid point (weighted_voronoi.py lines
336–356): fold the candidate loop over the k-d tree indices with
`min_dist = inf`, `best_fid = None`. -/
def gridBest (cfg : Config) (penalties : String → ℚ) (p : ℚ × ℚ) :
    Option String :=
  (runMin (candidateWeight cfg penalties p) (candFid cfg.facilityIds)
    (cfg.candIdx p) none).map (fun pr => pr.2)

/-- The grid points assigned to facility `f` (lines 330–361): the in-boundary
grid points whose winner is `f`, in grid order. -/
def assignedPoints (cfg : Config) (penalties : String → ℚ) (f : String) :
    List (ℚ × ℚ) :=
  (((gridPoints cfg.bounds.1 cfg.bounds.2.1 cfg.bounds.2.2.1 cfg.bounds.2.2.2).filter
      cfg.containsB).filter
    (fun p => gridBest cfg penalties p == some f))

/-- The assigned grid points of `f`, as a subset of the real plane. -/
def assignedSet (cfg : Config) (penalties : String → ℚ) (f : String) :
    Set (ℝ × ℝ) :=
  {x : ℝ × ℝ | ∃ p ∈ assignedPoints cfg penalties f,
    x = ((p.1 : ℝ), (p.2 : ℝ))}

/-- The output cell of facility `f` (lines 363–378): no cell when fewer than
3 grid points were assigned (`if len(points) < 3: continue`), otherwise the
convex hull of the assigned points clipped to the boundary
(`hull.intersection(boundary)`; an empty clip is likewise dropped, and the
empty set also represents a dropped cell). -/
def weightedCell (cfg : Config) (penalties : String → ℚ) (f : String) :
    Set (ℝ × ℝ) :=
  if (assignedPoints cfg penalties f).length < 3 then ∅
  else convexHull ℝ (assignedSet cfg penalties f) ∩ cfg.boundarySet

lemma gridBest_transfer (cfg : Config) (pen pen2 : String → ℚ) (f : String)
    (hf : pen f ≤ pen2 f) (hother : ∀ g, g ≠ f → pen2 g = pen g)
    (p : ℚ × ℚ) (h : gridBest cfg pen2 p = some f) :
    gridBest cfg pen p = some f := by
  unfold gridBest at h ⊢
  rw [runMin_none_eq] at h ⊢
  rw [Option.map_map] at h ⊢
  cases hfm2 : firstMin (candidateWeight cfg pen2 p) (cfg.candIdx p) with
  | none => rw [hfm2] at h; exact Option.noConfusion h
  | some j2 =>
    rw [hfm2] at h
    have hF : candFid cfg.facilityIds j2 = f := by
      simpa using h
    obtain ⟨j, hj, hjF⟩ := firstMin_transfer
      (candidateWeight cfg pen p) (candidateWeight cfg pen2 p)
      (candFid cfg.facilityIds) f (pen2 f - pen f) (by linarith)
      (by
        intro i
        unfold candidateWeight
        by_cases hi : candFid cfg.facilityIds i = f
        · rw [hi, if_pos rfl]
          ring
        · rw [if_neg hi, hother _ hi]
          ring)
      (cfg.candIdx p) j2 hfm2 hF
    rw [hj]
    simpa using hjF

lemma assignedPoints_subset (cfg : Config) (pen pen2 : String → ℚ)
    (f : String) (hf : pen f ≤ pen2 f)
    (hother : ∀ g, g ≠ f → pen2 g = pen g) :
    (assignedPoints cfg pen2 f).Sublist (assignedPoints cfg pen f) := by
  unfold assignedPoints
  apply List.monotone_filter_right
  intro p hp
  rw [beq_iff_eq] at hp ⊢
  exact gridBest_transfer cfg pen pen2 f hf hother p hp

/-- C2: in the additive-weighted mode, raising one generator's penalty (all
other penalties and all penalty-independent inputs fixed) never enlarges that
generator's output cell: its planar area is monotone non-increasing in its own
penalty. -/
theorem weightedCell_volume_antitone (cfg : Config)
    (pen pen2 : String → ℚ) (f : String)
    (hf : pen f ≤ pen2 f) (hother : ∀ g, g ≠ f → pen2 g = pen g) :
    MeasureTheory.volume (weightedCell cfg pen2 f)
      ≤ MeasureTheory.volume (weightedCell cfg pen f) := by
  have hsub := assignedPoints_subset cfg pen pen2 f hf hother
  unfold weightedCell
  by_cases h2 : (assignedPoints cfg pen2 f).length < 3
  · rw [if_pos h2]
    simp
  · rw [if_neg h2]
    have h1 : ¬ (assignedPoints cfg pen f).length < 3 := by
      have := hsub.length_le
      omega
    rw [if_neg h1]
    apply MeasureTheory.measure_mono
    apply Set.inter_subset_inter_left
    apply convexHull_mono
    intro x hx
    obtain ⟨p, hp, rfl⟩ := hx
    exact ⟨p, hsub.subset hp, rfl⟩

/-- Witness for C2 at a concrete configuration: one facility `"a"` whose
penalty is raised from 0 to 1. -/
theorem weightedCell_volume_antitone_witness :
    MeasureTheory.volume (weightedCell
        ⟨fun _ _ => 0, fun _ => (0, 0), ["a"], fun _ => [0], fun _ => true,
          (0, 0, 1, 1), Set.univ⟩
        (fun s => if s = "a" then 1 else 0) "a")
      ≤ MeasureTheory.volume (weightedCell
        ⟨fun _ _ => 0, fun _ => (0, 0), ["a"], fun _ => [0], fun _ => true,
          (0, 0, 1, 1), Set.univ⟩
        (fun _ => 0) "a") :=
  weightedCell_volume_antitone _ (fun _ => 0) (fun s => if s = "a" then 1 else 0)
    "a" (by norm_num)
    (by intro g hg; simp only []; rw [if_neg hg])

end WeightedModel

namespace MECModel

/-- Squared Euclidean norm of a difference (`np.linalg.norm(p - q)` squared).
Every comparison of norms in `_welzl_mec` is between non-negative values, so
carrying squares is an exact translation. -/
def sqNorm (p q : ℚ × ℚ) : ℚ := (p.1 - q.1) ^ 2 + (p.2 - q.2) ^ 2

/-- `circle_from_two_points`: the diameter circle (centre, squared radius). -/
def circleFromTwoPoints (p1 p2 : ℚ × ℚ) : (ℚ × ℚ) × ℚ :=
  (((p1.1 + p2.1) / 2, (p1.2 + p2.2) / 2), sqNorm p1 p2 / 4)

/-- The squared form of `point_in_circle`'s tolerance test
`norm(p - center) <= radius * 1.0001`. -/
def tol2 : ℚ := (10001 / 10000) ^ 2

/-- `circle_from_three_points` (analytics_service.py lines 138–155): the
circumcircle; near-degenerate triples (`|d| < 1e-10`) fall back to the
diameter circle of the farthest pair (Python's `max` keeps the first maximal
entry). -/
def circleFromThreePoints (p1 p2 p3 : ℚ × ℚ) : (ℚ × ℚ) × ℚ :=
  let d := 2 * (p1.1 * (p2.2 - p3.2) + p2.1 * (p3.2 - p1.2)
    + p3.1 * (p1.2 - p2.2))
  if |d| < 1 / 10 ^ 10 then
    if sqNorm p2 p3 ≤ sqNorm p1 p2 ∧ sqNorm p1 p3 ≤ sqNorm p1 p2 then
      circleFromTwoPoints p1 p2
    else if sqNorm p1 p3 ≤ sqNorm p2 p3 then circleFromTwoPoints p2 p3
    else circleFromTwoPoints p1 p3
  else
    let ux := ((p1.1 ^ 2 + p1.2 ^ 2) * (p2.2 - p3.2)
      + (p2.1 ^ 2 + p2.2 ^ 2) * (p3.2 - p1.2)
      + (p3.1 ^ 2 + p3.2 ^ 2) * (p1.2 - p2.2)) / d
    let uy := ((p1.1 ^ 2 + p1.2 ^ 2) * (p3.1 - p2.1)
      + (p2.1 ^ 2 + p2.2 ^ 2) * (p1.1 - p3.1)
      + (p3.1 ^ 2 + p3.2 ^ 2) * (p2.1 - p1.1)) / d
    ((ux, uy), sqNorm p1 (ux, uy))

/-- `_mec_with_two_points(pts, q1, q2)`: start from the diameter circle of
`q1, q2`; every point outside the tolerance test replaces the circle by the
circumcircle through it and `q1, q2`. -/
def mecTwo (q1 q2 : ℚ × ℚ) (pts : List (ℚ × ℚ)) : (ℚ × ℚ) × ℚ :=
  pts.foldl (fun cr p =>
      if sqNorm p cr.1 ≤ cr.2 * tol2 then cr
      else circleFromThreePoints p q1 q2)
    (circleFromTwoPoints q1 q2)

/-- The loop of `_mec_with_one_point`: `seen` is the already-processed prefix
`pts[:i]` passed to `_mec_with_two_points` on a violation. -/
def mecOneAux (q : ℚ × ℚ) :
    List (ℚ × ℚ) → List (ℚ × ℚ) → (ℚ × ℚ) × ℚ → (ℚ × ℚ) × ℚ
  | _, [], cr => cr
  | seen, p :: rest, cr =>
    mecOneAux q (seen ++ [p]) rest
      (if sqNorm p cr.1 ≤ cr.2 * tol2 then cr else mecTwo p q seen)

/-- `_mec_with_one_point(pts, q)`.  The `[]` case is unreachable: the source
indexes `pts[0]`. -/
def mecOne (pts : List (ℚ × ℚ)) (q : ℚ × ℚ) : (ℚ × ℚ) × ℚ :=
  match pts with
  | [] => ((0, 0), 0)
  | p0 :: rest => mecOneAux q [p0] rest (circleFromTwoPoints p0 q)

/-- The main loop of `_welzl_mec`: `seen` is the processed prefix `pts[:i]`
handed to `_mec_with_one_point` on a violation. -/
def welzlAux :
    List (ℚ × ℚ) → List (ℚ × ℚ) → (ℚ × ℚ) × ℚ → (ℚ × ℚ) × ℚ
  | _, [], cr => cr
  | seen, p :: rest, cr =>
    welzlAux (seen ++ [p]) rest
      (if sqNorm p cr.1 ≤ cr.2 * tol2 then cr else mecOne seen p)

/-- `_welzl_mec` on the already-shuffled point list (`np.random.shuffle` is
unseeded, so every input order is a possible run). -/
def welzlMEC (pts : List (ℚ × ℚ)) : (ℚ × ℚ) × ℚ :=
  match pts with
  | [] => ((0, 0), 0)
  | [p] => (p, 0)
  | p0 :: p1 :: rest => welzlAux [p0, p1] rest (circleFromTwoPoints p0 p1)

/-- Exact (tolerance-free) enclosure of all points by a circle given in
(centre, squared radius) form — what the brute force of the claim checks. -/
def encloses (c : ℚ × ℚ) (r2 : ℚ) (pts : List (ℚ × ℚ)) : Prop :=
  ∀ p ∈ pts, sqNorm p c ≤ r2

/-- A concrete 4-point input (in post-shuffle order) on which `_welzl_mec` is
not minimal. -/
def mecFailingInput : List (ℚ × ℚ) :=
  [(9864, 3382), (-10427, 0), (10427, 0), (-6257, 8343)]

/-- C3 fails on the code (part (b) of the claim): on `mecFailingInput` the
circumcircle of the first three points encloses all four points exactly, yet
its radius is strictly smaller than the radius returned by `_welzl_mec`
(squared radii compared; both are non-negative).  Mechanism: the `1.0001`
tolerance lets the third point pass as "inside" the diameter circle of the
first two, so the later recomputation pins the fourth point — an interior
point of the true minimum enclosing circle — on the boundary and returns a
strictly larger circle. -/
theorem welzlMEC_exceeds_bruteforce :
    encloses (circleFromThreePoints (9864, 3382) (-10427, 0) (10427, 0)).1
      (circleFromThreePoints (9864, 3382) (-10427, 0) (10427, 0)).2
      mecFailingInput ∧
    (circleFromThreePoints (9864, 3382) (-10427, 0) (10427, 0)).2
      < (welzlMEC mecFailingInput).2 := by
  constructor
  · intro p hp
    simp only [mecFailingInput, List.mem_cons, List.not_mem_nil, or_false] at hp
    rcases hp with rfl | rfl | rfl | rfl <;>
      norm_num [circleFromThreePoints, circleFromTwoPoints, sqNorm]
  · norm_num [mecFailingInput, welzlMEC, welzlAux, mecOne, mecOneAux, mecTwo,
      circleFromThreePoints, circleFromTwoPoints, sqNorm, tol2]

end MECModel
